import Mathlib

/-!
Verification of the caide C++ inliner's optimizer driver (`src/optimizer.cpp`).

The development shallowly embeds the driver's algorithms:

* the reachability loop of `OptimizerConsumer::HandleTranslationUnit` (step 2,
  "BFS"), modelled over an abstract dependency graph whose nodes are natural
  numbers standing for `clang::Decl*` handles;
* the declaration-map visitor `BuildNonImplicitDeclMap`;
* the phase sequence of `HandleTranslationUnit`, modelled as a state machine
  threading an event log and the diagnostics-suppression flag;
* `OptimizerConsumer::getResult` and `Optimizer::doOptimize` together with the
  `ErrorCollector` diagnostic consumer, modelled over `List Char` buffers.
-/

namespace CaideOptimizer

/-! ## The reachability loop (`HandleTranslationUnit`, step 2)

The C++ code is:

```
std::unordered_set<Decl*> used;
set<Decl*> queue;
for (Decl* decl : srcInfo.declsToKeep)
    queue.insert(decl->getCanonicalDecl());
while (!queue.empty()) {
    Decl* decl = *queue.begin();
    queue.erase(queue.begin());
    if (used.insert(decl).second)
        queue.insert(srcInfo.uses[decl].begin(), srcInfo.uses[decl].end());
}
```

Decl pointers become `Nat`; `srcInfo.uses` becomes `uses : Nat → Finset Nat`;
the iteration-order choice `*queue.begin()` is abstracted into a selection
function `pick` so that order independence can be stated; the concrete code
uses the minimum element (`std::set` iterates in order).  `used` is modelled
as the list of declarations in insertion order (so that "marked at most once"
is expressible); the set of used declarations is its `toFinset`.  The loop is
written with explicit fuel; termination is then a theorem, not an assumption.
-/

/-- One run of the reachability worklist loop, parameterized by the choice
`pick` of which frontier element is expanded next.  Returns `none` when the
fuel runs out before the frontier empties, and `some used` (the list of
declarations in the order they were first marked used) otherwise. -/
def bfsLoop (uses : Nat → Finset Nat) (pick : (s : Finset Nat) → s.Nonempty → Nat) :
    Nat → Finset Nat → List Nat → Option (List Nat)
  | 0, queue, used => if queue.Nonempty then none else some used
  | fuel + 1, queue, used =>
    if h : queue.Nonempty then
      let decl := pick queue h
      let queue' := queue.erase decl
      if decl ∈ used then
        bfsLoop uses pick fuel queue' used
      else
        bfsLoop uses pick fuel (queue' ∪ uses decl) (used ++ [decl])
    else
      some used

/-- The concrete selection used by the code: `*queue.begin()` of a `std::set`
is the minimum element. -/
def minPick (s : Finset Nat) (h : s.Nonempty) : Nat := s.min' h

/-- The reachability loop as the code runs it (minimum-first order). -/
def bfsRun (uses : Nat → Finset Nat) (fuel : Nat) (queue : Finset Nat) :
    Option (List Nat) :=
  bfsLoop uses minPick fuel queue []

/-- The initial frontier: the canonical declaration of every root-set
member (`for (Decl* decl : srcInfo.declsToKeep) queue.insert(decl->getCanonicalDecl())`). -/
def initialQueue (canon : Nat → Nat) (declsToKeep : List Nat) : Finset Nat :=
  (declsToKeep.map canon).toFinset

/-- The used set computed by the reachability phase, given a bound `n` on the
declaration handles (the graph is finite: every node is `< n`).  Fuel
`(n + 1) * (n + 1)` is enough for the loop to drain its frontier (proved
below), so the `.getD []` default is never taken on well-formed inputs. -/
def reachabilityUsed (uses : Nat → Finset Nat) (canon : Nat → Nat)
    (declsToKeep : List Nat) (n : Nat) : List Nat :=
  (bfsRun uses ((n + 1) * (n + 1)) (initialQueue canon declsToKeep)).getD []

/-- The edge relation of the dependency graph: `Step uses a b` holds when
`a`'s definition references `b` (`b ∈ srcInfo.uses[a]`). -/
def Step (uses : Nat → Finset Nat) (a b : Nat) : Prop := b ∈ uses a

/-- Reachability: `d` is reachable from the set `roots` by following `uses` edges. -/
def ReachableFrom (uses : Nat → Finset Nat) (roots : Finset Nat) (d : Nat) : Prop :=
  ∃ r ∈ roots, Relation.ReflTransGen (Step uses) r d

/-! ### Invariant lemmas about the worklist loop -/

/-- Declarations already marked used stay in the final marking list. -/
theorem bfsLoop_used_mem {uses : Nat → Finset Nat}
    {pick : (s : Finset Nat) → s.Nonempty → Nat} :
    ∀ {fuel : Nat} {queue : Finset Nat} {used L : List Nat},
      bfsLoop uses pick fuel queue used = some L → ∀ x ∈ used, x ∈ L := by
  intro fuel
  induction fuel with
  | zero =>
    intro queue used L h x hx
    simp only [bfsLoop] at h
    split at h
    · simp at h
    · cases h
      exact hx
  | succ fuel ih =>
    intro queue used L h x hx
    simp only [bfsLoop] at h
    split at h
    · split at h
      · exact ih h x hx
      · exact ih h x (by simp [hx])
    · cases h
      exact hx

/-- Every element of the frontier ends up in the final marking list. -/
theorem bfsLoop_queue_mem {uses : Nat → Finset Nat}
    {pick : (s : Finset Nat) → s.Nonempty → Nat} :
    ∀ {fuel : Nat} {queue : Finset Nat} {used L : List Nat},
      bfsLoop uses pick fuel queue used = some L → ∀ q ∈ queue, q ∈ L := by
  intro fuel
  induction fuel with
  | zero =>
    intro queue used L h q hq
    simp only [bfsLoop] at h
    split at h
    · simp at h
    · rename_i hne
      exact absurd ⟨q, hq⟩ hne
  | succ fuel ih =>
    intro queue used L h q hq
    simp only [bfsLoop] at h
    split at h
    case isTrue hne =>
      split at h
      case isTrue hmem =>
        by_cases hqd : q = pick queue hne
        · exact bfsLoop_used_mem h q (hqd ▸ hmem)
        · exact ih h q (Finset.mem_erase.mpr ⟨hqd, hq⟩)
      case isFalse hmem =>
        by_cases hqd : q = pick queue hne
        · exact bfsLoop_used_mem h q (by simp [hqd])
        · exact ih h q (Finset.mem_union_left _ (Finset.mem_erase.mpr ⟨hqd, hq⟩))
    case isFalse hne =>
      exact absurd ⟨q, hq⟩ hne

/-- Soundness: any property that holds on the frontier and the already-marked
declarations, and is preserved along `uses` edges, holds on everything the loop
marks. -/
theorem bfsLoop_sound {uses : Nat → Finset Nat}
    {pick : (s : Finset Nat) → s.Nonempty → Nat}
    (hpick : ∀ s h, pick s h ∈ s) {P : Nat → Prop}
    (hP : ∀ a b, P a → b ∈ uses a → P b) :
    ∀ {fuel : Nat} {queue : Finset Nat} {used L : List Nat},
      bfsLoop uses pick fuel queue used = some L →
      (∀ q ∈ queue, P q) → (∀ x ∈ used, P x) → ∀ d ∈ L, P d := by
  intro fuel
  induction fuel with
  | zero =>
    intro queue used L h hqueue hused d hd
    simp only [bfsLoop] at h
    split at h
    · simp at h
    · cases h
      exact hused d hd
  | succ fuel ih =>
    intro queue used L h hqueue hused d hd
    simp only [bfsLoop] at h
    split at h
    case isTrue hne =>
      have hpk : P (pick queue hne) := hqueue _ (hpick queue hne)
      split at h
      case isTrue hmem =>
        exact ih h (fun q hq => hqueue q (Finset.mem_of_mem_erase hq)) hused d hd
      case isFalse hmem =>
        refine ih h (fun q hq => ?_) (fun x hx => ?_) d hd
        · rcases Finset.mem_union.mp hq with hq | hq
          · exact hqueue q (Finset.mem_of_mem_erase hq)
          · exact hP _ q hpk hq
        · rcases List.mem_append.mp hx with hx | hx
          · exact hused x hx
          · simp only [List.mem_singleton] at hx
            exact hx ▸ hpk
    case isFalse hne =>
      cases h
      exact hused d hd

/-- Closure: if every already-marked declaration has all its successors inside
the marked-or-frontier set, then the final marking list is closed under
`uses` edges. -/
theorem bfsLoop_closed {uses : Nat → Finset Nat}
    {pick : (s : Finset Nat) → s.Nonempty → Nat} :
    ∀ {fuel : Nat} {queue : Finset Nat} {used L : List Nat},
      bfsLoop uses pick fuel queue used = some L →
      (∀ x ∈ used, ∀ b ∈ uses x, b ∈ used ∨ b ∈ queue) →
      ∀ d ∈ L, ∀ b ∈ uses d, b ∈ L := by
  intro fuel
  induction fuel with
  | zero =>
    intro queue used L h hinv d hd b hb
    simp only [bfsLoop] at h
    split at h
    · simp at h
    case isFalse hne =>
      cases h
      rcases hinv d hd b hb with hbu | hbq
      · exact hbu
      · exact absurd ⟨b, hbq⟩ hne
  | succ fuel ih =>
    intro queue used L h hinv d hd b hb
    simp only [bfsLoop] at h
    split at h
    case isTrue hne =>
      split at h
      case isTrue hmem =>
        refine ih h (fun x hx c hc => ?_) d hd b hb
        rcases hinv x hx c hc with hcu | hcq
        · exact Or.inl hcu
        · by_cases hcd : c = pick queue hne
          · exact Or.inl (hcd ▸ hmem)
          · exact Or.inr (Finset.mem_erase.mpr ⟨hcd, hcq⟩)
      case isFalse hmem =>
        refine ih h (fun x hx c hc => ?_) d hd b hb
        rcases List.mem_append.mp hx with hx | hx
        · rcases hinv x hx c hc with hcu | hcq
          · exact Or.inl (by simp [hcu])
          · by_cases hcd : c = pick queue hne
            · exact Or.inl (by simp [hcd])
            · exact Or.inr (Finset.mem_union_left _ (Finset.mem_erase.mpr ⟨hcd, hcq⟩))
        · simp only [List.mem_singleton] at hx
          subst hx
          exact Or.inr (Finset.mem_union_right _ hc)
    case isFalse hne =>
      cases h
      rcases hinv d hd b hb with hbu | hbq
      · exact hbu
      · exact absurd ⟨b, hbq⟩ hne

/-- Each declaration is marked used at most once: the final marking list has
no duplicates (the loop checks membership — `used.insert(decl).second` —
before expanding a node's successors). -/
theorem bfsLoop_nodup {uses : Nat → Finset Nat}
    {pick : (s : Finset Nat) → s.Nonempty → Nat} :
    ∀ {fuel : Nat} {queue : Finset Nat} {used L : List Nat},
      bfsLoop uses pick fuel queue used = some L → used.Nodup → L.Nodup := by
  intro fuel
  induction fuel with
  | zero =>
    intro queue used L h hnd
    simp only [bfsLoop] at h
    split at h
    · simp at h
    · cases h
      exact hnd
  | succ fuel ih =>
    intro queue used L h hnd
    simp only [bfsLoop] at h
    split at h
    case isTrue hne =>
      split at h
      case isTrue hmem => exact ih h hnd
      case isFalse hmem =>
        exact ih h (by simp [List.nodup_append, hnd, hmem])
    case isFalse hne =>
      cases h
      exact hnd

/-- Termination: on a finite graph (every handle below `n`), the loop drains
its frontier within `(n - used.length) * (n + 1) + queue.card` further
iterations; any larger fuel yields a `some` result. -/
theorem bfsLoop_terminates {uses : Nat → Finset Nat}
    {pick : (s : Finset Nat) → s.Nonempty → Nat}
    (hpick : ∀ s h, pick s h ∈ s) {n : Nat}
    (hu : ∀ a, uses a ⊆ Finset.range n) :
    ∀ {fuel : Nat} {queue : Finset Nat} {used : List Nat},
      queue ⊆ Finset.range n → (∀ x ∈ used, x < n) → used.Nodup →
      (n - used.length) * (n + 1) + queue.card < fuel →
      ∃ L, bfsLoop uses pick fuel queue used = some L := by
  intro fuel
  induction fuel with
  | zero =>
    intro queue used hq hused hnd hfuel
    exact absurd hfuel (by omega)
  | succ fuel ih =>
    intro queue used hq hused hnd hfuel
    simp only [bfsLoop]
    split
    case isTrue hne =>
      have hdq : pick queue hne ∈ queue := hpick queue hne
      have hdn : pick queue hne < n := Finset.mem_range.mp (hq hdq)
      have hpos : 1 ≤ queue.card := Finset.card_pos.mpr hne
      have hcard : (queue.erase (pick queue hne)).card = queue.card - 1 :=
        Finset.card_erase_of_mem hdq
      split
      case isTrue hmem =>
        refine ih (fun x hx => hq (Finset.mem_of_mem_erase hx)) hused hnd ?_
        omega
      case isFalse hmem =>
        have hsub : queue.erase (pick queue hne) ∪ uses (pick queue hne) ⊆ Finset.range n :=
          Finset.union_subset (fun x hx => hq (Finset.mem_of_mem_erase hx)) (hu _)
        have hlen : used.length < n := by
          have h1 : used.toFinset ⊆ Finset.range n := fun x hx =>
            Finset.mem_range.mpr (hused x (List.mem_toFinset.mp hx))
          have h2 : used.toFinset ⊂ Finset.range n :=
            (Finset.ssubset_iff_of_subset h1).mpr
              ⟨pick queue hne, Finset.mem_range.mpr hdn, fun hc => hmem (List.mem_toFinset.mp hc)⟩
          have h3 := Finset.card_lt_card h2
          rwa [Finset.card_range, List.toFinset_card_of_nodup hnd] at h3
        have hmul : (n - used.length) * (n + 1)
            = (n - (used.length + 1)) * (n + 1) + (n + 1) := by
          have hstep : n - used.length = (n - (used.length + 1)) + 1 := by omega
          rw [hstep]; ring
        have hcard2 : (queue.erase (pick queue hne) ∪ uses (pick queue hne)).card ≤ n := by
          simpa using Finset.card_le_card hsub
        refine ih hsub (fun x hx => ?_) (by simp [List.nodup_append, hnd, hmem]) ?_
        · rcases List.mem_append.mp hx with hx | hx
          · exact hused x hx
          · simp only [List.mem_singleton] at hx
            exact hx ▸ hdn
        · have hlenapp : (used ++ [pick queue hne]).length = used.length + 1 := by simp
          rw [hlenapp]
          linarith
    case isFalse hne =>
      exact ⟨used, rfl⟩

/-- Correctness of the worklist loop for any valid selection function: a
declaration is marked used if and only if it is reachable from the initial
frontier. -/
theorem bfsLoop_mem_iff {uses : Nat → Finset Nat}
    {pick : (s : Finset Nat) → s.Nonempty → Nat}
    (hpick : ∀ s h, pick s h ∈ s) {fuel : Nat} {queue : Finset Nat} {L : List Nat}
    (hrun : bfsLoop uses pick fuel queue [] = some L) (d : Nat) :
    d ∈ L ↔ ReachableFrom uses queue d := by
  constructor
  · intro hd
    refine bfsLoop_sound hpick
      (show ∀ a b, ReachableFrom uses queue a → b ∈ uses a → ReachableFrom uses queue b
        from ?_) hrun ?_ ?_ d hd
    · rintro a b ⟨r, hr, hp⟩ hb
      exact ⟨r, hr, hp.tail hb⟩
    · exact fun q hq => ⟨q, hq, Relation.ReflTransGen.refl⟩
    · intro x hx
      simp at hx
  · rintro ⟨r, hr, hpath⟩
    induction hpath with
    | refl => exact bfsLoop_queue_mem hrun r hr
    | tail hab hbc ih =>
      exact bfsLoop_closed hrun (fun x hx => by simp at hx) _ ih _ hbc

/-- A small concrete dependency graph for the witnesses: node `0` has a
self-loop and points to `1`; nodes `1` and `2` form a cycle; node `3` is
isolated. -/
def sampleUses : Nat → Finset Nat := fun a =>
  match a with
  | 0 => {0, 1}
  | 1 => {2}
  | 2 => {1}
  | _ => ∅

theorem sampleUses_subset : ∀ a, sampleUses a ⊆ Finset.range 4 := by
  intro a
  match a with
  | 0 => decide
  | 1 => decide
  | 2 => decide
  | n + 3 => simp [sampleUses]

/-- A second concrete graph whose BFS and DFS-like orders differ:
`0 → 1`, `0 → 2`. -/
def sampleUsesB : Nat → Finset Nat := fun a =>
  match a with
  | 0 => {1, 2}
  | _ => ∅

/-- The selection opposite to the code's: expand the maximum frontier
element. -/
def maxPick (s : Finset Nat) (h : s.Nonempty) : Nat := s.max' h

/-- C1: the set `used` computed by the reachability phase of
`HandleTranslationUnit` equals exactly the set of nodes reachable, following
outgoing `uses` edges, from the canonical declarations of the root-set
members. -/
theorem reachabilityUsed_mem_iff (uses : Nat → Finset Nat) (canon : Nat → Nat)
    (declsToKeep : List Nat) (n : Nat)
    (hu : ∀ a, uses a ⊆ Finset.range n)
    (hroots : initialQueue canon declsToKeep ⊆ Finset.range n) (d : Nat) :
    d ∈ reachabilityUsed uses canon declsToKeep n ↔
      ReachableFrom uses (initialQueue canon declsToKeep) d := by
  have hcard : (initialQueue canon declsToKeep).card ≤ n := by
    simpa using Finset.card_le_card hroots
  have hfuel : (n - ([] : List Nat).length) * (n + 1) +
      (initialQueue canon declsToKeep).card < (n + 1) * (n + 1) := by
    simp only [List.length_nil, Nat.sub_zero]
    nlinarith
  obtain ⟨L, hL⟩ := bfsLoop_terminates
    (show ∀ s h, minPick s h ∈ s from fun s h => s.min'_mem h)
    hu hroots (by simp) List.nodup_nil hfuel
  rw [reachabilityUsed, bfsRun, hL]
  exact bfsLoop_mem_iff (show ∀ s h, minPick s h ∈ s from fun s h => s.min'_mem h) hL d

/-- Witness for C1 on the concrete graph `sampleUses`. -/
theorem reachabilityUsed_mem_iff_witness :
    2 ∈ reachabilityUsed sampleUses id [0] 4 ↔
      ReachableFrom sampleUses (initialQueue id [0]) 2 :=
  reachabilityUsed_mem_iff sampleUses id [0] 4 sampleUses_subset (by decide) 2

/-- C2: the reachability worklist loop terminates for every finite dependency
graph — cycles and self-loops included — and marks each declaration as used
at most once (the final marking list has no duplicates). -/
theorem bfsRun_terminates_nodup (uses : Nat → Finset Nat) (canon : Nat → Nat)
    (declsToKeep : List Nat) (n : Nat)
    (hu : ∀ a, uses a ⊆ Finset.range n)
    (hroots : initialQueue canon declsToKeep ⊆ Finset.range n) :
    ∃ L, bfsRun uses ((n + 1) * (n + 1)) (initialQueue canon declsToKeep) = some L ∧
      L.Nodup := by
  have hcard : (initialQueue canon declsToKeep).card ≤ n := by
    simpa using Finset.card_le_card hroots
  have hfuel : (n - ([] : List Nat).length) * (n + 1) +
      (initialQueue canon declsToKeep).card < (n + 1) * (n + 1) := by
    simp only [List.length_nil, Nat.sub_zero]
    nlinarith
  obtain ⟨L, hL⟩ := bfsLoop_terminates
    (show ∀ s h, minPick s h ∈ s from fun s h => s.min'_mem h)
    hu hroots (by simp) List.nodup_nil hfuel
  exact ⟨L, hL, bfsLoop_nodup hL List.nodup_nil⟩

/-- Witness for C2 on `sampleUses`, a graph with a self-loop and a cycle. -/
theorem bfsRun_terminates_nodup_witness :
    ∃ L, bfsRun sampleUses ((4 + 1) * (4 + 1)) (initialQueue id [0]) = some L ∧
      L.Nodup :=
  bfsRun_terminates_nodup sampleUses id [0] 4 sampleUses_subset (by decide)

/-- C3: the used set is order-independent — any two runs of the worklist loop
from the same roots, whatever the choice of which frontier element is expanded
next, produce the same final used set. -/
theorem bfs_order_independent (uses : Nat → Finset Nat) (canon : Nat → Nat)
    (declsToKeep : List Nat)
    {pick₁ pick₂ : (s : Finset Nat) → s.Nonempty → Nat}
    (hpick₁ : ∀ s h, pick₁ s h ∈ s) (hpick₂ : ∀ s h, pick₂ s h ∈ s)
    {fuel₁ fuel₂ : Nat} {L₁ L₂ : List Nat}
    (h₁ : bfsLoop uses pick₁ fuel₁ (initialQueue canon declsToKeep) [] = some L₁)
    (h₂ : bfsLoop uses pick₂ fuel₂ (initialQueue canon declsToKeep) [] = some L₂) :
    L₁.toFinset = L₂.toFinset := by
  ext d
  simp only [List.mem_toFinset]
  rw [bfsLoop_mem_iff hpick₁ h₁ d, bfsLoop_mem_iff hpick₂ h₂ d]

/-- Witness for C3: on `sampleUsesB` the min-first and max-first orders mark
the declarations in different orders but with the same resulting set. -/
theorem bfs_order_independent_witness :
    ([0, 1, 2] : List Nat).toFinset = ([0, 2, 1] : List Nat).toFinset :=
  bfs_order_independent sampleUsesB id [0]
    (show ∀ s h, minPick s h ∈ s from fun s h => s.min'_mem h)
    (show ∀ s h, maxPick s h ∈ s from fun s h => s.max'_mem h)
    (show bfsLoop sampleUsesB minPick 10 (initialQueue id [0]) [] = some [0, 1, 2]
      by decide)
    (show bfsLoop sampleUsesB maxPick 10 (initialQueue id [0]) [] = some [0, 2, 1]
      by decide)

/-! ## `BuildNonImplicitDeclMap` (`HandleTranslationUnit`, step 0)

The visitor overrides `shouldVisitImplicitCode` and
`shouldVisitTemplateInstantiations` to return `false`, so the
`clang::RecursiveASTVisitor` skeleton never descends into
implicit/compiler-generated declarations or template instantiations, and
`VisitDecl` emplaces `(SourceInfo::makeKey(decl), decl)` into
`srcInfo.nonImplicitDecls` for every declaration actually visited. -/

/-- A lexical declaration node of the AST: its `isImplicit()` flag, whether
it is a template instantiation, the canonicalized source-location signature
`SourceInfo::makeKey` produces for it, and its child declarations. -/
inductive CDecl where
  | node (isImplicit : Bool) (isInstantiation : Bool) (key : Nat) (children : List CDecl)

def CDecl.isImplicit : CDecl → Bool
  | .node i _ _ _ => i

def CDecl.isInstantiation : CDecl → Bool
  | .node _ t _ _ => t

def CDecl.key : CDecl → Nat
  | .node _ _ k _ => k

mutual

/-- The `RecursiveASTVisitor` traversal skeleton: the declarations on which
`VisitDecl` fires, in visit order.  When `visitImplicit`
(resp. `visitInstantiations`) is `false`, implicit (resp. instantiated)
declarations and their entire subtrees are skipped. -/
def traverseDecl (visitImplicit visitInstantiations : Bool) : CDecl → List CDecl
  | .node impl inst key children =>
    if (impl && !visitImplicit) || (inst && !visitInstantiations) then []
    else
      CDecl.node impl inst key children ::
        traverseDecls visitImplicit visitInstantiations children

/-- Traversal of a list of sibling declarations. -/
def traverseDecls (visitImplicit visitInstantiations : Bool) : List CDecl → List CDecl
  | [] => []
  | d :: ds =>
    traverseDecl visitImplicit visitInstantiations d ++
      traverseDecls visitImplicit visitInstantiations ds

end

/-- Model of `std::unordered_map::emplace`: insert only when the key is not yet
present. -/
def emplaceDecl (m : List (Nat × CDecl)) (key : Nat) (d : CDecl) : List (Nat × CDecl) :=
  if m.any (fun p => p.1 = key) then m else m ++ [(key, d)]

/-- The map `BuildNonImplicitDeclMap` builds over the translation unit: traverse with
both visit flags `false` and emplace each visited declaration under its
source-location key. -/
def buildNonImplicitDeclMap (root : CDecl) : List (Nat × CDecl) :=
  (traverseDecl false false root).foldl (fun m d => emplaceDecl m d.key d) []

mutual

/-- Every declaration the non-implicit traversal visits is explicitly
written: neither implicit nor a template instantiation. -/
theorem traverseDecl_flags : ∀ (d x : CDecl), x ∈ traverseDecl false false d →
    x.isImplicit = false ∧ x.isInstantiation = false
  | .node impl inst key children, x, hx => by
    unfold traverseDecl at hx
    split at hx
    · simp at hx
    · rename_i hcond
      simp only [Bool.not_false, Bool.and_true, Bool.or_eq_true, not_or] at hcond
      rcases List.mem_cons.mp hx with hx | hx
      · subst hx
        exact ⟨by simpa [CDecl.isImplicit] using hcond.1,
               by simpa [CDecl.isInstantiation] using hcond.2⟩
      · exact traverseDecls_flags children x hx

theorem traverseDecls_flags : ∀ (ds : List CDecl) (x : CDecl),
    x ∈ traverseDecls false false ds →
    x.isImplicit = false ∧ x.isInstantiation = false
  | [], x, hx => by simp [traverseDecls] at hx
  | d :: ds, x, hx => by
    unfold traverseDecls at hx
    rcases List.mem_append.mp hx with hx | hx
    · exact traverseDecl_flags d x hx
    · exact traverseDecls_flags ds x hx

end

/-- Entries produced by folding `emplaceDecl` come from the accumulator or
from the visited list. -/
theorem mem_foldl_emplace : ∀ (L : List CDecl) (m : List (Nat × CDecl)) (p : Nat × CDecl),
    p ∈ L.foldl (fun m d => emplaceDecl m d.key d) m →
    p ∈ m ∨ ∃ d ∈ L, p = (d.key, d) := by
  intro L
  induction L with
  | nil =>
    intro m p hp
    exact Or.inl hp
  | cons d ds ih =>
    intro m p hp
    rcases ih _ p hp with hp | ⟨e, he, hpe⟩
    · simp only [emplaceDecl] at hp
      split at hp
      · exact Or.inl hp
      · rcases List.mem_append.mp hp with hp | hp
        · exact Or.inl hp
        · simp only [List.mem_singleton] at hp
          exact Or.inr ⟨d, List.mem_cons_self d ds, hp⟩
    · exact Or.inr ⟨e, List.mem_cons_of_mem d he, hpe⟩

/-- C6: the declaration map built by `BuildNonImplicitDeclMap` contains only
explicitly-written declarations — no implicit/compiler-generated node and no
template instantiation is ever recorded in `srcInfo.nonImplicitDecls`. -/
theorem buildNonImplicitDeclMap_only_explicit (root : CDecl) :
    ∀ p ∈ buildNonImplicitDeclMap root,
      p.2.isImplicit = false ∧ p.2.isInstantiation = false := by
  intro p hp
  rcases mem_foldl_emplace _ _ p hp with hp | ⟨d, hd, hpd⟩
  · simp at hp
  · subst hpd
    exact traverseDecl_flags root d hd

/-- A concrete translation unit for the C6 witness: the root declares an
implicit child (whose subtree holds key 2), a template instantiation, and an
explicit declaration with key 4. -/
def sampleTree : CDecl :=
  .node false false 0
    [.node true false 1 [.node false false 2 []],
     .node false true 3 [],
     .node false false 4 []]

/-- Witness for C6: the explicit declaration with key 4 is recorded, and the
theorem certifies it is neither implicit nor an instantiation. -/
theorem buildNonImplicitDeclMap_only_explicit_witness :
    (CDecl.node false false 4 []).isImplicit = false ∧
      (CDecl.node false false 4 []).isInstantiation = false :=
  buildNonImplicitDeclMap_only_explicit sampleTree (4, CDecl.node false false 4 [])
    (by simp [buildNonImplicitDeclMap, sampleTree, traverseDecl, traverseDecls,
      emplaceDecl, CDecl.key])

/-! ## `OptimizerConsumer::getResult` -/

/-- Model of `OptimizerConsumer::getResult`: if the rewriter holds a rewrite buffer
for the main file, its content is returned; otherwise ("No changes") the
original main-file buffer is returned, or the string `"Inliner error"` when
that buffer cannot be obtained (the source manager set `invalid`). -/
def getResult (rewriteBuf : Option (List Char)) (bufferData : List Char)
    (invalid : Bool) : List Char :=
  match rewriteBuf with
  | some buf => buf
  | none => if invalid then ("Inliner error").data else bufferData

/-- C5: when no rewrite buffer exists for the main file and the main-file
buffer is valid, the produced result is the original source text
byte-for-byte. -/
theorem getResult_no_edits (bufferData : List Char) :
    getResult none bufferData false = bufferData := rfl

/-- C9: when the main-file buffer cannot be obtained, a descriptive error
string is produced instead of source text. -/
theorem getResult_invalid_buffer (bufferData : List Char) :
    getResult none bufferData true = ("Inliner error").data := rfl

/-! ## `ErrorCollector` and `Optimizer::doOptimize` -/

/-- One diagnostic as delivered to `ErrorCollector::HandleDiagnostic`: its
level (numeric value of `clang::DiagnosticsEngine::Level`, where
`Error = 4` and `Fatal = 5`), the printed source location when the diagnostic
has a source manager, and the formatted message text. -/
structure Diagnostic where
  level : Nat
  location : Option (List Char)
  text : List Char

/-- The numeric value of `DiagnosticsEngine::Level::Error`. -/
def errorLevel : Nat := 4

/-- The message `ErrorCollector::HandleDiagnostic` records for one
error-or-worse diagnostic: the printed location followed by `": "`, then the
formatted diagnostic text. -/
def diagnosticMessage (d : Diagnostic) : List Char :=
  match d.location with
  | some loc => loc ++ (": ").data ++ d.text
  | none => d.text

/-- Model of `ErrorCollector::HandleDiagnostic`: appends the rendered message to the
collected list when the level is `Error` or higher. -/
def handleDiagnostic (errors : List (List Char)) (d : Diagnostic) :
    List (List Char) :=
  if errorLevel ≤ d.level then errors ++ [diagnosticMessage d] else errors

/-- The errors collected by the `ErrorCollector` diagnostic consumer over a
run's diagnostic stream. -/
def collectedErrors (diags : List Diagnostic) : List (List Char) :=
  diags.foldl handleDiagnostic []

/-- The aggregate failure message `Optimizer::doOptimize` builds when the
front-end tool run fails: `"Inliner failed."`, then — when any compilation
error was collected — a header followed by every error, each terminated by a
newline. -/
def inlinerFailedMessage (errors : List (List Char)) : List Char :=
  ("Inliner failed.").data ++
    (if errors.isEmpty then []
     else (" The following compilation errors were detected: ").data ++
       (errors.map (fun e => e ++ ['\n'])).flatten)

/-- Model of `Optimizer::doOptimize`: run the front-end tool; a nonzero return throws
a `std::runtime_error` carrying the aggregate message (modelled as
`Except.error`), otherwise the consumer's result string is returned. -/
def doOptimize (ret : Int) (diags : List Diagnostic) (result : List Char) :
    Except (List Char) (List Char) :=
  if ret ≠ 0 then Except.error (inlinerFailedMessage (collectedErrors diags))
  else Except.ok result

/-- Every collected error is contained in the aggregate failure message. -/
theorem mem_inlinerFailedMessage {errors : List (List Char)} {e : List Char}
    (he : e ∈ errors) : e <:+: inlinerFailedMessage errors := by
  have hjoin : (e ++ ['\n']) <:+: (errors.map (fun e => e ++ ['\n'])).flatten :=
    List.infix_of_mem_flatten (List.mem_map_of_mem _ he)
  have he' : e <:+: (errors.map (fun e => e ++ ['\n'])).flatten :=
    ((e.prefix_append ['\n']).isInfix).trans hjoin
  have hne : ¬ errors.isEmpty := by
    cases errors with
    | nil => cases he
    | cons a l => simp
  have hsuf : (errors.map (fun e => e ++ ['\n'])).flatten <:+ inlinerFailedMessage errors := by
    rw [inlinerFailedMessage, if_neg hne]
    exact (List.suffix_append _ _).trans (List.suffix_append _ _)
  exact he'.trans hsuf.isInfix

/-- C4: `doOptimize` fails exactly when the front-end tool run returns
nonzero; the raised error is the single aggregate message, which contains
every compilation error collected by the diagnostic consumer, and a failed
run yields no output text (no `ok` result). -/
theorem doOptimize_failure (ret : Int) (diags : List Diagnostic)
    (result : List Char) :
    ((∃ m, doOptimize ret diags result = Except.error m) ↔ ret ≠ 0) ∧
    (ret ≠ 0 →
      doOptimize ret diags result =
        Except.error (inlinerFailedMessage (collectedErrors diags)) ∧
      ∀ e ∈ collectedErrors diags,
        e <:+: inlinerFailedMessage (collectedErrors diags)) := by
  refine ⟨⟨fun ⟨m, hm⟩ => ?_, fun h => ?_⟩, fun h => ?_⟩
  · by_contra hret
    simp [doOptimize, hret] at hm
  · exact ⟨inlinerFailedMessage (collectedErrors diags), by simp [doOptimize, h]⟩
  · exact ⟨by simp [doOptimize, h], fun e he => mem_inlinerFailedMessage he⟩

/-- Witness for C4: a run whose tool returned 1 with one collected error. -/
theorem doOptimize_failure_witness :
    ∃ m, doOptimize 1 [⟨4, none, ['b', 'a', 'd']⟩] [] = Except.error m :=
  (doOptimize_failure 1 [⟨4, none, ['b', 'a', 'd']⟩] []).1.mpr (by decide)

/-! ## The phase sequence of `HandleTranslationUnit`

`HandleTranslationUnit` is straight-line code; it is modelled as the
sequential composition of one function per phase over a state carrying an
event log, the diagnostics engine's suppress-all flag, and the data each
phase produces.  The external visitors (`DependenciesCollector`,
`OptimizerVisitor`, `MergeNamespacesVisitor`,
`RemoveInactivePreprocessorBlocks`, `SmartRewriter`) live in other
translation units; only their invocation points are modelled, and their
outputs are inputs here. -/

/-- Observable pipeline events of `HandleTranslationUnit`. -/
inductive Event where
  | buildDeclMap
  | collectDeps
  | setSuppress (b : Bool)
  | forceParse (f : Nat)
  | reachability
  | optimizerTraverse
  | optimizerFinalize
  | mergeNamespaces
  | ppFinalize
  | applyChanges
deriving DecidableEq

/-- The inputs `HandleTranslationUnit` works from: the declaration tree, the
dependency collector's outputs (`srcInfo.uses`, `srcInfo.declsToKeep`,
`srcInfo.delayedParsedFunctions`), a bound on declaration handles, and the
buffers `getResult` reads. -/
structure TUInput where
  tree : CDecl
  bound : Nat
  canon : Nat → Nat
  uses : Nat → Finset Nat
  declsToKeep : List Nat
  delayedParsedFunctions : List Nat
  rewriteBuf : Option (List Char)
  bufferData : List Char
  bufferInvalid : Bool

/-- The state threaded through `HandleTranslationUnit`. -/
structure TUState where
  log : List Event
  suppressAll : Bool
  nonImplicitDecls : List (Nat × CDecl)
  used : List Nat
  result : List Char

/-- The state on entry to `HandleTranslationUnit`: empty log, the
diagnostics engine's current suppression flag, nothing computed yet. -/
def initState (suppress : Bool) : TUState :=
  { log := [], suppressAll := suppress, nonImplicitDecls := [], used := [],
    result := [] }

/-- Step 0: `BuildNonImplicitDeclMap` populates `srcInfo.nonImplicitDecls`. -/
def phaseBuildDeclMap (inp : TUInput) (s : TUState) : TUState :=
  { s with log := s.log ++ [Event.buildDeclMap],
           nonImplicitDecls := buildNonImplicitDeclMap inp.tree }

/-- Step 1a: the `DependenciesCollector` traversal (an external visitor whose
outputs are part of the input). -/
def phaseCollectDeps (s : TUState) : TUState :=
  { s with log := s.log ++ [Event.collectDeps] }

/-- Step 1b: force parsing of every delayed-parsed template function, with
all diagnostics suppressed for the duration and the previously saved
suppression flag restored afterwards. -/
def phaseForceDelayedParsing (inp : TUInput) (s : TUState) : TUState :=
  let suppressAll := s.suppressAll
  let s1 := { s with suppressAll := true,
                     log := s.log ++ [Event.setSuppress true] }
  let s2 := inp.delayedParsedFunctions.foldl
    (fun st f => { st with log := st.log ++ [Event.forceParse f] }) s1
  { s2 with suppressAll := suppressAll,
            log := s2.log ++ [Event.setSuppress suppressAll] }

/-- Step 2: the reachability loop fills `used`. -/
def phaseReachability (inp : TUInput) (s : TUState) : TUState :=
  { s with log := s.log ++ [Event.reachability],
           used := reachabilityUsed inp.uses inp.canon inp.declsToKeep inp.bound }

/-- Step 3a: `OptimizerVisitor` traversal followed by its `Finalize`. -/
def phaseOptimizerVisitor (s : TUState) : TUState :=
  { s with log := s.log ++ [Event.optimizerTraverse, Event.optimizerFinalize] }

/-- Step 3b: `MergeNamespacesVisitor` traversal. -/
def phaseMergeNamespaces (s : TUState) : TUState :=
  { s with log := s.log ++ [Event.mergeNamespaces] }

/-- Steps 4–5: `ppCallbacks.Finalize()` and then
`smartRewriter->applyChanges()`. -/
def phaseFinalizeAndRewrite (s : TUState) : TUState :=
  { s with log := s.log ++ [Event.ppFinalize, Event.applyChanges] }

/-- Result extraction: `result = getResult()`. -/
def phaseGetResult (inp : TUInput) (s : TUState) : TUState :=
  { s with result := getResult inp.rewriteBuf inp.bufferData inp.bufferInvalid }

/-- Model of `OptimizerConsumer::HandleTranslationUnit`: the phases composed in the
order the code performs them. -/
def handleTranslationUnit (inp : TUInput) (s : TUState) : TUState :=
  phaseGetResult inp
    (phaseFinalizeAndRewrite
      (phaseMergeNamespaces
        (phaseOptimizerVisitor
          (phaseReachability inp
            (phaseForceDelayedParsing inp
              (phaseCollectDeps
                (phaseBuildDeclMap inp s)))))))

/-- Folding the force-parse loop only appends its events to the log. -/
theorem foldl_forceParse (fs : List Nat) :
    ∀ s : TUState,
      fs.foldl (fun st f => { st with log := st.log ++ [Event.forceParse f] }) s =
        { s with log := s.log ++ fs.map Event.forceParse } := by
  induction fs with
  | nil =>
    intro s
    simp
  | cons f fs ih =>
    intro s
    rw [List.foldl_cons, ih]
    simp

/-- The full event log of one `HandleTranslationUnit` run. -/
theorem handleTranslationUnit_log (inp : TUInput) (suppress : Bool) :
    (handleTranslationUnit inp (initState suppress)).log =
      [Event.buildDeclMap, Event.collectDeps, Event.setSuppress true] ++
        inp.delayedParsedFunctions.map Event.forceParse ++
        [Event.setSuppress suppress, Event.reachability,
         Event.optimizerTraverse, Event.optimizerFinalize,
         Event.mergeNamespaces, Event.ppFinalize, Event.applyChanges] := by
  simp [handleTranslationUnit, phaseGetResult, phaseFinalizeAndRewrite,
    phaseMergeNamespaces, phaseOptimizerVisitor, phaseReachability,
    phaseForceDelayedParsing, phaseCollectDeps, phaseBuildDeclMap, initState,
    foldl_forceParse]

/-- C8: within a run the pipeline phases execute in the fixed sequence —
declaration indexing, dependency collection (with the deferred-parse forcing),
reachability, lexical pruning, namespace merging, preprocessor finalization,
then the single application of all accumulated edits; in particular the
preprocessor pruner's `Finalize` is logged after the lexical pruner and
namespace normalizer and before `applyChanges`. -/
theorem handleTranslationUnit_phase_order (inp : TUInput) (suppress : Bool) :
    (handleTranslationUnit inp (initState suppress)).log =
      [Event.buildDeclMap, Event.collectDeps, Event.setSuppress true] ++
        inp.delayedParsedFunctions.map Event.forceParse ++
        [Event.setSuppress suppress, Event.reachability,
         Event.optimizerTraverse, Event.optimizerFinalize,
         Event.mergeNamespaces, Event.ppFinalize, Event.applyChanges] :=
  handleTranslationUnit_log inp suppress

/-- C7: every function recorded in `srcInfo.delayedParsedFunctions` has its
deferred body force-parsed during the dependency-collection phase, before the
reachability computation begins. -/
theorem forceParse_before_reachability (inp : TUInput) (suppress : Bool) :
    ∃ pre post,
      (handleTranslationUnit inp (initState suppress)).log =
        pre ++ Event.reachability :: post ∧
      ∀ f ∈ inp.delayedParsedFunctions, Event.forceParse f ∈ pre := by
  refine ⟨[Event.buildDeclMap, Event.collectDeps, Event.setSuppress true] ++
      inp.delayedParsedFunctions.map Event.forceParse ++
      [Event.setSuppress suppress],
    [Event.optimizerTraverse, Event.optimizerFinalize, Event.mergeNamespaces,
     Event.ppFinalize, Event.applyChanges], ?_, ?_⟩
  · rw [handleTranslationUnit_log]
    simp
  · intro f hf
    simp only [List.mem_append]
    exact Or.inl (Or.inr (List.mem_map_of_mem Event.forceParse hf))

/-- C10: the deferred-parse forcing step saves the diagnostics engine's
suppress-all flag, suppresses only for the duration of the forcing loop, and
restores the saved value: the flag after the step equals the flag before it. -/
theorem forceDelayedParsing_suppress_frame (inp : TUInput) (s : TUState) :
    (phaseForceDelayedParsing inp s).suppressAll = s.suppressAll ∧
    (inp.delayedParsedFunctions.foldl
        (fun (st : TUState) (f : Nat) =>
          { st with log := st.log ++ [Event.forceParse f] })
        { s with suppressAll := true,
                 log := s.log ++ [Event.setSuppress true] }).suppressAll = true := by
  constructor
  · rfl
  · rw [foldl_forceParse]

end CaideOptimizer
